import Mathlib

/-!
Verification development for the `sequence_assembly` repository.

The Python sources are embedded shallowly:
  * `overlap` embeds `overlap` from `exercise_two/graph/utils.py`
    (the copy in `assembly_with_nx/graph/utils.py` is textually identical);
  * `Vertex`, `Edge`, `OverlapGraph`, `buildFromFragments`, `determineEdges`,
    `contractEdge`, `mergeLoop` and `mergeByArbitraryTiebreaks` embed the
    `OverlapGraph` class of `exercise_two/graph/__init__.py`;
  * `complement`, `calcOrientation` and `getGoodOrientation` embed the
    orientation pre-pass of `assembly_with_nx/graph/utils.py`.

Python strings are modelled as `List Char`; Python object references to
vertices are modelled by storing the (immutable) vertex value inline, and
removal by object identity becomes removal keyed on the unique integer ids.
A Python `KeyError` / `UnboundLocalError` path is modelled with `Option`.
-/

namespace SeqAsm

/-- Result dictionary of `overlap` (`utils.py`).  The keys `prefix_start`,
`prefix_end`, `suffix_start`, `suffix_end` are absent from the Python dict
until a match is recorded, hence `Option`; the key `overlap` is initialised
to `None`.  The echo keys `suffix_string` / `prefix_string` (the two inputs,
never read downstream) are omitted. -/
structure OvInfo where
  weight : Nat
  ovMatch : Option (List Char)
  prefixStart : Option Nat
  prefixEnd : Option Nat
  suffixStart : Option Nat
  suffixEnd : Option Nat
deriving Repr, DecidableEq

/-- The initial `largest_overlap` dictionary: weight 0, `overlap = None`,
slice keys absent. -/
def initOv : OvInfo := ⟨0, none, none, none, none, none⟩

/-- Inner loop of `overlap`: for a fixed outer index `i` (Python
`for j in range(len_s_two + 1)`), compare the current suffix of `a` with
each prefix of `b`, updating the record when a strictly longer match is
found.  The Python variable `len_overlap` always equals the dict's
`weight`, so the state is just the record. -/
def overlapInner (a b : List Char) (i : Nat) (st : OvInfo) : OvInfo :=
  (List.range (b.length + 1)).foldl
    (fun st2 j =>
      let suf := a.drop (i - 1)
      let pre := b.take j
      if suf = pre ∧ st2.weight < pre.length then
        ⟨pre.length, some suf, some 0, some j, some (i - 1), some a.length⟩
      else st2)
    st

/-- `overlap(string_one, string_two)` from `utils.py`: the outer loop
`for i in range(len_s_one, 0, -1)` enumerates `i = len a, …, 1`. -/
def overlap (a b : List Char) : OvInfo :=
  ((List.range a.length).map (fun k => a.length - k)).foldl
    (fun st i => overlapInner a b i st)
    initOv

/-- `L` is the length of a suffix of `a` that is also a prefix of `b`. -/
def isOverlapLen (a b : List Char) (L : Nat) : Prop :=
  L ≤ a.length ∧ L ≤ b.length ∧ a.drop (a.length - L) = b.take L

instance (a b : List Char) (L : Nat) : Decidable (isOverlapLen a b L) :=
  inferInstanceAs (Decidable (_ ∧ _ ∧ _))

/-- The record written when a match of length `L` is found (with
`a.length - L = i - 1` for the Python loop index `i`). -/
def matchRecord (a : List Char) (L : Nat) : OvInfo :=
  ⟨L, some (a.drop (a.length - L)), some 0, some L, some (a.length - L), some a.length⟩

section FoldHelpers

/-- A fold whose step fixes every list element is the identity. -/
theorem foldl_id_of_step_id {α β : Type} {f : β → α → β} {l : List α} {st : β}
    (h : ∀ s a, a ∈ l → f s a = s) : l.foldl f st = st := by
  induction l generalizing st with
  | nil => rfl
  | cons x xs ih =>
      simp only [List.foldl_cons]
      rw [h st x (by simp)]
      exact ih (fun s a ha => h s a (by simp [ha]))

theorem init_le_foldl_max (l : List Nat) (a : Nat) : a ≤ l.foldl max a := by
  induction l generalizing a with
  | nil => simp
  | cons y ys ih => exact le_trans (le_max_left a y) (ih (max a y))

theorem le_foldl_max (l : List Nat) (a : Nat) : ∀ x ∈ l, x ≤ l.foldl max a := by
  induction l generalizing a with
  | nil => simp
  | cons y ys ih =>
      intro x hx
      rcases List.mem_cons.mp hx with rfl | hx'
      · exact le_trans (le_max_right a x) (init_le_foldl_max ys (max a x))
      · exact ih (max a y) x hx'

end FoldHelpers

section OverlapSpec

/-- Closed form of the inner loop: the unique prefix index that can match the
current suffix is `j = suf.length`, and the update fires exactly when the
suffix is a prefix of `b` longer than the best match so far. -/
theorem overlapInner_eq (a b : List Char) (i : Nat) (st : OvInfo)
    (h1 : 1 ≤ i) (h2 : i ≤ a.length) :
    overlapInner a b i st =
      if (a.length - (i - 1)) ≤ b.length ∧
          a.drop (i - 1) = b.take (a.length - (i - 1)) ∧
          st.weight < a.length - (i - 1) then
        matchRecord a (a.length - (i - 1))
      else st := by
  classical
  set suf := a.drop (i - 1) with hsuf
  have hlen : suf.length = a.length - (i - 1) := by
    simp [hsuf]
  -- the step function
  set F : OvInfo → Nat → OvInfo := fun st2 j =>
    let pre := b.take j
    if suf = pre ∧ st2.weight < pre.length then
      ⟨pre.length, some suf, some 0, some j, some (i - 1), some a.length⟩
    else st2 with hF
  have hstep : overlapInner a b i st = (List.range (b.length + 1)).foldl F st := rfl
  by_cases hmatch : suf.length ≤ b.length ∧ suf = b.take suf.length
  · -- the unique matching index is j = suf.length
    obtain ⟨hle, heq⟩ := hmatch
    have hsplit : List.range (b.length + 1) =
        List.range suf.length ++ List.range' suf.length (b.length + 1 - suf.length) := by
      simp only [List.range_eq_range']
      have happ := List.range'_append 0 suf.length (b.length + 1 - suf.length) 1
      simp only [one_mul, zero_add] at happ
      rw [happ]
      congr 1
      omega
    have hid_lo : ∀ (s : OvInfo) (j : Nat), j ∈ List.range suf.length → F s j = s := by
      intro s j hj
      have hj' : j < suf.length := List.mem_range.mp hj
      have hjb : j ≤ b.length := by omega
      have htl : (b.take j).length = j := by
        rw [List.length_take]; omega
      have hne : suf ≠ b.take j := by
        intro hcontra
        have : suf.length = j := by rw [hcontra, htl]
        omega
      simp [hF, hne]
    have hid_hi : ∀ (s : OvInfo) (j : Nat),
        j ∈ List.range' (suf.length + 1) (b.length - suf.length) → F s j = s := by
      intro s j hj
      have hj' : suf.length + 1 ≤ j ∧ j < suf.length + 1 + (b.length - suf.length) :=
        List.mem_range'_1.mp hj
      have hjb : j ≤ b.length := by omega
      have htl : (b.take j).length = j := by
        rw [List.length_take]; omega
      have hne : suf ≠ b.take j := by
        intro hcontra
        have : suf.length = j := by rw [hcontra, htl]
        omega
      simp [hF, hne]
    have hrange' : List.range' suf.length (b.length + 1 - suf.length) =
        suf.length :: List.range' (suf.length + 1) (b.length - suf.length) := by
      have hn : b.length + 1 - suf.length = (b.length - suf.length) + 1 := by omega
      rw [hn, List.range'_succ]
    rw [hstep, hsplit, List.foldl_append, foldl_id_of_step_id hid_lo, hrange',
      List.foldl_cons, foldl_id_of_step_id hid_hi]
    have htake : (b.take suf.length).length = suf.length := by
      rw [List.length_take]; omega
    have hFred : F st suf.length =
        if suf = b.take suf.length ∧ st.weight < (b.take suf.length).length then
          (⟨(b.take suf.length).length, some suf, some 0, some suf.length,
            some (i - 1), some a.length⟩ : OvInfo)
        else st := rfl
    by_cases hw : st.weight < suf.length
    · have hFst : F st suf.length = matchRecord a (a.length - (i - 1)) := by
        rw [hFred, if_pos ⟨heq, by rw [htake]; exact hw⟩]
        have hidx : a.length - (a.length - (i - 1)) = i - 1 := by omega
        simp only [matchRecord, hidx, ← hsuf]
        rw [← hlen, htake]
      rw [hFst, if_pos ⟨by omega, by rw [← hlen]; exact heq, by omega⟩]
    · have hFst : F st suf.length = st := by
        rw [hFred, if_neg]
        rintro ⟨-, hcontra⟩
        rw [htake] at hcontra
        exact hw hcontra
      rw [hFst, if_neg]
      rintro ⟨-, -, hcontra⟩
      omega
  · -- no index matches at all
    have hid : ∀ (s : OvInfo) (j : Nat), j ∈ List.range (b.length + 1) → F s j = s := by
      intro s j hj
      have hj' : j ≤ b.length := by
        have := List.mem_range.mp hj; omega
      have htl : (b.take j).length = j := by
        rw [List.length_take]; omega
      have hne : suf ≠ b.take j := by
        intro hcontra
        apply hmatch
        have hlj : suf.length = j := by rw [hcontra, htl]
        constructor
        · omega
        · rw [hlj, ← hcontra]
      simp [hF, hne]
    rw [hstep, foldl_id_of_step_id hid, if_neg]
    rintro ⟨hA, hB, -⟩
    exact hmatch ⟨by omega, by rw [hlen]; exact hB⟩

/-- Invariant of the outer loop of `overlap`: after processing the first `n`
suffix lengths (`1, …, n`), the record is either still the initial one (no
match so far) or the record for the longest matching length so far. -/
theorem overlap_outer_inv (a b : List Char) :
    ∀ n, n ≤ a.length →
      (((List.range n).foldl (fun st k => overlapInner a b (a.length - k) st) initOv = initOv ∧
          ∀ L, 1 ≤ L → L ≤ n → ¬ isOverlapLen a b L)
        ∨ (∃ L, 1 ≤ L ∧ L ≤ n ∧ isOverlapLen a b L ∧
            (List.range n).foldl (fun st k => overlapInner a b (a.length - k) st) initOv =
              matchRecord a L ∧
            ∀ L', isOverlapLen a b L' → L' ≤ n → L' ≤ L)) := by
  intro n
  induction n with
  | zero =>
      intro _
      left
      refine ⟨rfl, ?_⟩
      intro L h1 h2
      omega
  | succ n ih =>
      intro hn
      have hn' : n ≤ a.length := by omega
      have hi1 : 1 ≤ a.length - n := by omega
      have hi2 : a.length - n ≤ a.length := by omega
      have hidx1 : a.length - n - 1 = a.length - (n + 1) := by omega
      have hidx2 : a.length - (a.length - n - 1) = n + 1 := by omega
      have hstep := overlapInner_eq a b (a.length - n)
      rw [List.range_succ, List.foldl_append, List.foldl_cons, List.foldl_nil]
      rcases ih hn' with ⟨hfold, hnone⟩ | ⟨L, hL1, hLn, hLov, hfold, hmax⟩
      · rw [hfold, hstep initOv hi1 hi2, hidx2]
        by_cases hcond : n + 1 ≤ b.length ∧ a.drop (a.length - n - 1) = b.take (n + 1)
        · right
          refine ⟨n + 1, by omega, le_refl _, ⟨by omega, hcond.1, by rw [← hidx1]; exact hcond.2⟩,
            ?_, ?_⟩
          · rw [if_pos ⟨hcond.1, hcond.2, by simp [initOv]⟩]
          · intro L' _ h
            exact h
        · left
          constructor
          · rw [if_neg]
            rintro ⟨hA, hB, -⟩
            exact hcond ⟨hA, hB⟩
          · intro L h1 h2
            rcases Nat.lt_or_ge L (n + 1) with hlt | hge
            · exact hnone L h1 (by omega)
            · have hLeq : L = n + 1 := by omega
              subst hLeq
              rintro ⟨-, hB, hC⟩
              exact hcond ⟨hB, by rw [hidx1]; exact hC⟩
      · rw [hfold, hstep (matchRecord a L) hi1 hi2, hidx2]
        have hwL : (matchRecord a L).weight = L := rfl
        by_cases hcond : n + 1 ≤ b.length ∧ a.drop (a.length - n - 1) = b.take (n + 1)
        · right
          refine ⟨n + 1, by omega, le_refl _, ⟨by omega, hcond.1, by rw [← hidx1]; exact hcond.2⟩,
            ?_, ?_⟩
          · rw [if_pos ⟨hcond.1, hcond.2, by rw [hwL]; omega⟩]
          · intro L' _ h
            exact h
        · right
          refine ⟨L, hL1, by omega, hLov, ?_, ?_⟩
          · rw [if_neg]
            rintro ⟨hA, hB, -⟩
            exact hcond ⟨hA, hB⟩
          · intro L' hov h
            rcases Nat.lt_or_ge L' (n + 1) with hlt | hge
            · exact hmax L' hov (by omega)
            · have hLeq : L' = n + 1 := by omega
              subst hLeq
              exact absurd ⟨hov.2.1, by rw [hidx1]; exact hov.2.2⟩ hcond

/-- `overlap` written as the fold over suffix lengths. -/
theorem overlap_eq_fold (a b : List Char) :
    overlap a b =
      (List.range a.length).foldl (fun st k => overlapInner a b (a.length - k) st) initOv := by
  unfold overlap
  rw [List.foldl_map]

/-- Master characterisation of the overlap scorer: the returned record is
`initOv` when no nonzero-length suffix of `a` is a prefix of `b`, and
otherwise the record of the longest such length. -/
theorem overlap_spec (a b : List Char) :
    isOverlapLen a b (overlap a b).weight ∧
    (∀ L, isOverlapLen a b L → L ≤ (overlap a b).weight) ∧
    ((overlap a b).weight = 0 → overlap a b = initOv) ∧
    (0 < (overlap a b).weight → overlap a b = matchRecord a (overlap a b).weight) := by
  rcases overlap_outer_inv a b a.length (le_refl _) with ⟨hfold, hnone⟩ |
    ⟨L, hL1, hLn, hLov, hfold, hmax⟩
  · rw [overlap_eq_fold, hfold]
    refine ⟨⟨Nat.zero_le _, Nat.zero_le _, by simp [initOv]⟩, ?_, fun _ => rfl, ?_⟩
    swap
    · intro h
      simp [initOv] at h
    intro L hov
    rcases Nat.eq_zero_or_pos L with rfl | hpos
    · exact le_refl _
    · exact absurd hov (hnone L hpos hov.1)
  · rw [overlap_eq_fold, hfold]
    have hw : (matchRecord a L).weight = L := rfl
    rw [hw]
    refine ⟨hLov, ?_, by omega, fun _ => rfl⟩
    intro L' hov
    exact hmax L' hov hov.1

/-- The recorded weight is bounded by both string lengths. -/
theorem overlap_weight_le (a b : List Char) :
    (overlap a b).weight ≤ a.length ∧ (overlap a b).weight ≤ b.length :=
  ⟨(overlap_spec a b).1.1, (overlap_spec a b).1.2.1⟩

/-- With a positive weight `w`, the record's slice fields are
`prefix_start = 0`, `prefix_end = w`, and the match is the length-`w`
suffix of `a`. -/
theorem overlap_pos_fields (a b : List Char) (h : 0 < (overlap a b).weight) :
    (overlap a b).prefixEnd = some (overlap a b).weight ∧
    (overlap a b).prefixStart = some 0 ∧
    (overlap a b).ovMatch = some (a.drop (a.length - (overlap a b).weight)) := by
  have hrec := (overlap_spec a b).2.2.2 h
  rw [hrec]
  exact ⟨rfl, rfl, rfl⟩

end OverlapSpec

/-! ## The overlap graph of `exercise_two/graph/__init__.py`

Python `Vertex` objects are immutable during the greedy merge (their `value`
is set only at creation), so an `Edge`'s object references to its endpoint
vertices are modelled by storing the vertex records inline; removal by
object identity becomes removal of the (unique-id) record. -/

structure Vertex where
  id : Nat
  value : List Char
deriving Repr, DecidableEq

/-- `Edge` of `exercise_two/graph/__init__.py` (fields `id`, `source`,
`sink`, `weight`, `match`, `pos_start`, `pos_end`).  The `match`/`pos_*`
fields are `Option`s because the Python values may be `None` / absent. -/
structure Edge where
  id : Nat
  source : Vertex
  sink : Vertex
  weight : Nat
  ovMatch : Option (List Char)
  posStart : Option Nat
  posEnd : Option Nat
deriving Repr, DecidableEq

/-- `OverlapGraph` state: edge list, vertex list and the `random_tiebreak`
flag.  The two print flags only trigger graphviz rendering and never affect
the algorithmic state, so they are omitted. -/
structure OverlapGraph where
  edges : List Edge
  vertices : List Vertex
  randomTiebreak : Bool
deriving Repr, DecidableEq

/-- `add_vertex`: `_id = 1 if not vertex_ids else max(vertex_ids) + 1`.
Over `Nat`, `max(ids) + 1` with `foldl max 0` also yields `1` on the empty
list, matching the Python branch. -/
def nextVertexId (vertices : List Vertex) : Nat :=
  (vertices.map Vertex.id).foldl max 0 + 1

def addVertex (vertices : List Vertex) (value : List Char) : Vertex × List Vertex :=
  let v : Vertex := ⟨nextVertexId vertices, value⟩
  (v, vertices ++ [v])

/-- `add_edge`: same id scheme as `add_vertex`, then append. -/
def nextEdgeId (edges : List Edge) : Nat :=
  (edges.map Edge.id).foldl max 0 + 1

def addEdge (edges : List Edge) (source sink : Vertex) (ov : OvInfo) : List Edge :=
  edges ++ [⟨nextEdgeId edges, source, sink, ov.weight, ov.ovMatch, ov.prefixStart, ov.prefixEnd⟩]

/-- `determine_edges`: all ordered pairs of distinct-id vertices; an edge is
added only when the overlap weight is nonzero. -/
def determineEdges (vertices : List Vertex) : List Edge :=
  vertices.foldl
    (fun acc v =>
      vertices.foldl
        (fun acc2 w =>
          if v.id ≠ w.id then
            let ov := overlap v.value w.value
            if ov.weight ≠ 0 then addEdge acc2 v w ov else acc2
          else acc2)
        acc)
    []

def buildVertices (fragments : List (List Char)) : List Vertex :=
  fragments.foldl (fun vs f => (addVertex vs f).2) []

/-- `OverlapGraph.build_from_fragments`.  The Python constructor defaults
`random_tiebreak = True` and the CLI then overwrites it via `set_random`;
here the flag is a parameter. -/
def buildFromFragments (fragments : List (List Char)) (randomTiebreak : Bool) : OverlapGraph :=
  { edges := determineEdges (buildVertices fragments),
    vertices := buildVertices fragments,
    randomTiebreak := randomTiebreak }

/-- `sorted(self.edges, key=lambda e: e.weight)[-1]`: Python's sort is
stable, so the last element of the sorted list is the *last* edge of the
list attaining the maximal weight, which this left fold computes. -/
def lastMaxEdge (e : Edge) (es : List Edge) : Edge :=
  es.foldl (fun best x => if best.weight ≤ x.weight then x else best) e

/-- Edge selection at the top of the merge loop.  In random mode
(`random_tiebreak` on), `random.choice(max_edges)` is modelled by an oracle
index `pick` reduced modulo the number of tied edges. -/
def chooseEdge (edges : List Edge) (randomTiebreak : Bool) (pick : Nat) : Option Edge :=
  match edges with
  | [] => none
  | e :: es =>
      let maxE := lastMaxEdge e es
      if randomTiebreak then
        let maxEdges := (e :: es).filter (fun x => x.weight == maxE.weight)
        some (maxEdges.getD (pick % maxEdges.length) maxE)
      else some maxE

/-- The edge-rewrite loop body of `merge_by_arbitrary_tiebreaks` (lines
368–385): redirect an endpoint with the old source's or old sink's id to the
merged vertex and recompute weight, match and match position from `overlap`.
The sink branch runs first, then the source branch on the updated edge,
exactly as in the Python loop. -/
def redirectEdge (mergedV : Vertex) (oldSourceId oldSinkId : Nat) (e : Edge) : Edge :=
  let e1 :=
    if e.sink.id = oldSinkId ∨ e.sink.id = oldSourceId then
      let ov := overlap e.source.value mergedV.value
      { e with sink := mergedV, weight := ov.weight, ovMatch := ov.ovMatch,
               posStart := ov.prefixStart, posEnd := ov.prefixEnd }
    else e
  if e1.source.id = oldSinkId ∨ e1.source.id = oldSourceId then
    let ov := overlap mergedV.value e1.sink.value
    { e1 with source := mergedV, weight := ov.weight, ovMatch := ov.ovMatch,
              posStart := ov.prefixStart, posEnd := ov.prefixEnd }
  else e1

/-- One iteration of the `while self.edges:` body of
`merge_by_arbitrary_tiebreaks`, after the maximal edge has been selected:
remove it, build the merged fragment `source.value + sink.value[pos_end:]`,
append the merged vertex (id computed while both old vertices are still
present), drop the source's outgoing edges, the sink→source edge and the
sink's incoming edges, remove the two old vertices, and redirect/recompute
the remaining edges.  Removal of found edges is by the unique id/record, so
dropping-all-found is a `filter`; `posEnd.getD 0` stands for the Python
dict access `max_edge.pos_end` (never `None` on reachable states, see
`GraphInv`). -/
def contractEdge (g : OverlapGraph) (maxEdge : Edge) : OverlapGraph :=
  let source := maxEdge.source
  let sink := maxEdge.sink
  let edges1 := g.edges.erase maxEdge
  let mergedFragment := source.value ++ sink.value.drop (maxEdge.posEnd.getD 0)
  let mergedV : Vertex := ⟨nextVertexId g.vertices, mergedFragment⟩
  let vertices1 := g.vertices ++ [mergedV]
  let edges2 := edges1.filter (fun e => !(e.source.id == source.id))
  let edges3 := edges2.filter (fun e => !(e.sink.id == source.id && e.source.id == sink.id))
  let edges4 := edges3.filter (fun e => !(e.sink.id == sink.id))
  let vertices2 := (vertices1.erase source).erase sink
  let edges5 := edges4.map (redirectEdge mergedV source.id sink.id)
  { edges := edges5, vertices := vertices2, randomTiebreak := g.randomTiebreak }

/-- One full iteration of the merge loop (edge selection plus contraction).
When the edge list is empty no edge can be selected and the state is
returned unchanged (the Python loop guard prevents this case). -/
def mergeRound (g : OverlapGraph) (p : Nat) : OverlapGraph :=
  match chooseEdge g.edges g.randomTiebreak p with
  | none => g
  | some m => contractEdge g m

section Termination

theorem foldl_choice_mem {α : Type} (f : α → α → α)
    (hf : ∀ a x, f a x = a ∨ f a x = x) (init : α) (l : List α) :
    l.foldl f init = init ∨ l.foldl f init ∈ l := by
  induction l generalizing init with
  | nil => left; rfl
  | cons x xs ih =>
      simp only [List.foldl_cons]
      rcases hf init x with h | h
      · rw [h]
        rcases ih init with h' | h'
        · left; exact h'
        · right; exact List.mem_cons_of_mem _ h'
      · rw [h]
        rcases ih x with h' | h'
        · right; rw [h']; exact List.mem_cons_self _ _
        · right; exact List.mem_cons_of_mem _ h'

theorem lastMaxEdge_mem (e : Edge) (es : List Edge) : lastMaxEdge e es ∈ e :: es := by
  unfold lastMaxEdge
  have hmem := foldl_choice_mem (fun best x => if best.weight ≤ x.weight then x else best)
    (fun a x => by
      by_cases h : a.weight ≤ x.weight
      · right; simp [h]
      · left; simp [h]) e es
  rcases hmem with h | h
  · rw [h]; exact List.mem_cons_self _ _
  · exact List.mem_cons_of_mem _ h

theorem getD_mem_or_eq {α : Type} (l : List α) (n : Nat) (d : α) :
    l.getD n d ∈ l ∨ l.getD n d = d := by
  induction l generalizing n with
  | nil => right; rfl
  | cons x xs ih =>
      cases n with
      | zero => left; exact List.mem_cons_self _ _
      | succ m =>
          rcases ih m with h | h
          · left; exact List.mem_cons_of_mem _ h
          · right; exact h

theorem chooseEdge_cons (e : Edge) (es : List Edge) (rt : Bool) (p : Nat) :
    chooseEdge (e :: es) rt p =
      if rt = true then
        some (((e :: es).filter (fun x => x.weight == (lastMaxEdge e es).weight)).getD
          (p % ((e :: es).filter (fun x => x.weight == (lastMaxEdge e es).weight)).length)
          (lastMaxEdge e es))
      else some (lastMaxEdge e es) := rfl

theorem chooseEdge_mem {edges : List Edge} {rt : Bool} {p : Nat} {m : Edge}
    (h : chooseEdge edges rt p = some m) : m ∈ edges := by
  match edges with
  | [] => simp [chooseEdge] at h
  | e :: es =>
      rw [chooseEdge_cons] at h
      by_cases hrt : rt = true
      · rw [if_pos hrt] at h
        set L := (e :: es).filter (fun x => x.weight == (lastMaxEdge e es).weight) with hL
        have hsome : m = L.getD (p % L.length) (lastMaxEdge e es) := by
          exact (Option.some.injEq _ _ ▸ h).symm
        rcases getD_mem_or_eq L (p % L.length) (lastMaxEdge e es) with hmem | heq
        · rw [hsome]
          exact List.mem_of_mem_filter (hL ▸ hmem)
        · rw [hsome, heq]
          exact lastMaxEdge_mem e es
      · rw [if_neg hrt] at h
        have : m = lastMaxEdge e es := (Option.some.injEq _ _ ▸ h).symm
        rw [this]
        exact lastMaxEdge_mem e es

theorem chooseEdge_eq_none {edges : List Edge} {rt : Bool} {p : Nat}
    (h : chooseEdge edges rt p = none) : edges = [] := by
  match edges with
  | [] => rfl
  | e :: es =>
      rw [chooseEdge_cons] at h
      by_cases hrt : rt = true
      · rw [if_pos hrt] at h; exact absurd h (by simp)
      · rw [if_neg hrt] at h; exact absurd h (by simp)

theorem contractEdge_edges_lt (g : OverlapGraph) (m : Edge) (hm : m ∈ g.edges) :
    (contractEdge g m).edges.length < g.edges.length := by
  unfold contractEdge
  simp only [List.length_map]
  calc ((((g.edges.erase m).filter _).filter _).filter _).length
      ≤ ((g.edges.erase m).filter _).length := by
        exact le_trans (List.length_filter_le _ _) (List.length_filter_le _ _)
    _ ≤ (g.edges.erase m).length := List.length_filter_le _ _
    _ < g.edges.length := by
        rw [List.length_erase_of_mem hm]
        have : g.edges.length ≠ 0 := by
          intro hcontra
          rw [List.length_eq_zero] at hcontra
          rw [hcontra] at hm
          exact absurd hm (List.not_mem_nil m)
        omega

theorem mergeRound_edges_lt (g : OverlapGraph) (p : Nat) (h : g.edges ≠ []) :
    (mergeRound g p).edges.length < g.edges.length := by
  unfold mergeRound
  cases hc : chooseEdge g.edges g.randomTiebreak p with
  | none => exact absurd (chooseEdge_eq_none hc) h
  | some m => exact contractEdge_edges_lt g m (chooseEdge_mem hc)

end Termination

/-- The `while self.edges:` loop of `merge_by_arbitrary_tiebreaks`; `k`
counts iterations so each round consults a fresh oracle value `pick k`. -/
def mergeLoop (pick : Nat → Nat) (k : Nat) (g : OverlapGraph) : OverlapGraph :=
  if h : g.edges = [] then g
  else mergeLoop pick (k + 1) (mergeRound g (pick k))
termination_by g.edges.length
decreasing_by exact mergeRound_edges_lt g (pick k) h

/-- The first `n` iterations of the merge loop: the graph after `n`
contraction steps (stopping early once the edge list is empty).  These are
exactly the states the assembler passes through. -/
def runSteps (pick : Nat → Nat) (k n : Nat) (g : OverlapGraph) : OverlapGraph :=
  match n with
  | 0 => g
  | n + 1 => if g.edges = [] then g else runSteps pick (k + 1) n (mergeRound g (pick k))

/-- Tagged result of `merge_by_arbitrary_tiebreaks`: a single assembled
sequence, the leftover vertex list when more than one vertex remains, or
the `"Something went wrong!?"` / `None` outcome for zero vertices. -/
inductive AsmResult where
  | assembled : List Char → AsmResult
  | leftover : List Vertex → AsmResult
  | internalError : AsmResult
deriving Repr, DecidableEq

/-- `merge_by_arbitrary_tiebreaks`: run the loop, then dispatch on the
number of remaining vertices. -/
def mergeByArbitraryTiebreaks (pick : Nat → Nat) (g : OverlapGraph) : AsmResult :=
  let g2 := mergeLoop pick 0 g
  match g2.vertices with
  | [v] => AsmResult.assembled v.value
  | [] => AsmResult.internalError
  | vs => AsmResult.leftover vs

section BuildLemmas

/-- Canonical vertex list: ids `k+1, k+2, …` over the fragments in order.
`build_from_fragments` produces `canonVerts 0 fragments`. -/
def canonVerts : Nat → List (List Char) → List Vertex
  | _, [] => []
  | k, f :: fs => ⟨k + 1, f⟩ :: canonVerts (k + 1) fs

theorem canonVerts_ids (fs : List (List Char)) :
    ∀ k, (canonVerts k fs).map Vertex.id = List.range' (k + 1) fs.length := by
  induction fs with
  | nil => intro k; rfl
  | cons f fs ih =>
      intro k
      show (k + 1) :: (canonVerts (k + 1) fs).map Vertex.id = _
      rw [ih (k + 1)]
      show _ = List.range' (k + 1) (fs.length + 1)
      rw [List.range'_succ]

theorem canonVerts_values (fs : List (List Char)) :
    ∀ k, (canonVerts k fs).map Vertex.value = fs := by
  induction fs with
  | nil => intro k; rfl
  | cons f fs ih =>
      intro k
      show f :: (canonVerts (k + 1) fs).map Vertex.value = f :: fs
      rw [ih (k + 1)]

theorem canonVerts_length (fs : List (List Char)) :
    ∀ k, (canonVerts k fs).length = fs.length := by
  induction fs with
  | nil => intro k; rfl
  | cons f fs ih =>
      intro k
      show (canonVerts (k + 1) fs).length + 1 = fs.length + 1
      rw [ih (k + 1)]

theorem mem_canonVerts (fs : List (List Char)) :
    ∀ k v, v ∈ canonVerts k fs →
      ∃ i, ∃ h : i < fs.length, v = ⟨k + i + 1, fs.get ⟨i, h⟩⟩ := by
  induction fs with
  | nil => intro k v hv; exact absurd hv (List.not_mem_nil v)
  | cons f fs ih =>
      intro k v hv
      rcases List.mem_cons.mp hv with rfl | hv'
      · exact ⟨0, by simp, by simp⟩
      · obtain ⟨i, hi, hv⟩ := ih (k + 1) v hv'
        refine ⟨i + 1, by simpa using hi, ?_⟩
        rw [hv]
        have : k + 1 + i + 1 = k + (i + 1) + 1 := by omega
        simp [this]

theorem canonVerts_append_singleton (gs : List (List Char)) (f : List Char) :
    ∀ k, canonVerts k (gs ++ [f]) = canonVerts k gs ++ [⟨k + gs.length + 1, f⟩] := by
  induction gs with
  | nil => intro k; rfl
  | cons g gs ih =>
      intro k
      show (⟨k + 1, g⟩ : Vertex) :: canonVerts (k + 1) (gs ++ [f]) = _
      rw [ih (k + 1)]
      simp only [canonVerts, List.cons_append]
      have hk : k + 1 + gs.length + 1 = k + (gs.length + 1) + 1 := by omega
      rw [hk]
      simp [List.length_cons]

theorem foldl_max_range' :
    ∀ (n s A : Nat), (List.range' s n).foldl max A = if n = 0 then A else max A (s + n - 1) := by
  intro n
  induction n with
  | zero => intro s A; rfl
  | succ n ih =>
      intro s A
      rw [List.range'_succ, List.foldl_cons, ih (s + 1) (max A s)]
      by_cases h : n = 0
      · subst h
        rw [if_pos rfl, if_neg (Nat.succ_ne_zero 0)]
        omega
      · rw [if_neg h, if_neg (Nat.succ_ne_zero n)]
        omega

theorem nextVertexId_canon (gs : List (List Char)) :
    nextVertexId (canonVerts 0 gs) = gs.length + 1 := by
  unfold nextVertexId
  rw [canonVerts_ids gs 0, foldl_max_range' gs.length 1 0]
  by_cases h : gs.length = 0
  · rw [if_pos h]; omega
  · rw [if_neg h]; omega

theorem buildVertices_go (fs : List (List Char)) :
    ∀ gs, fs.foldl (fun vs f => (addVertex vs f).2) (canonVerts 0 gs) =
      canonVerts 0 (gs ++ fs) := by
  induction fs with
  | nil => intro gs; simp
  | cons f fs ih =>
      intro gs
      rw [List.foldl_cons]
      have hstep : (addVertex (canonVerts 0 gs) f).2 = canonVerts 0 (gs ++ [f]) := by
        unfold addVertex
        rw [canonVerts_append_singleton gs f 0]
        simp [nextVertexId_canon]
      rw [hstep, ih (gs ++ [f])]
      congr 1
      simp

theorem buildVertices_eq_canon (fs : List (List Char)) :
    buildVertices fs = canonVerts 0 fs := by
  have h := buildVertices_go fs []
  simpa [buildVertices] using h

end BuildLemmas

section InvariantDefs

/-- Data consistency of one edge: its stored weight, match and slice bounds
are exactly what the overlap scorer returns for its endpoints' sequences. -/
def edgeDataOk (e : Edge) : Prop :=
  e.weight = (overlap e.source.value e.sink.value).weight ∧
  e.ovMatch = (overlap e.source.value e.sink.value).ovMatch ∧
  e.posStart = (overlap e.source.value e.sink.value).prefixStart ∧
  e.posEnd = (overlap e.source.value e.sink.value).prefixEnd

/-- Invariant of every graph the greedy assembler touches: every edge is
data-consistent, has strictly positive weight, is not a self-loop, and
references vertices present in the graph; vertex ids are unique. -/
def GraphInv (g : OverlapGraph) : Prop :=
  (∀ e ∈ g.edges, edgeDataOk e ∧ 0 < e.weight ∧ e.source.id ≠ e.sink.id ∧
    e.source ∈ g.vertices ∧ e.sink ∈ g.vertices) ∧
  (g.vertices.map Vertex.id).Nodup

theorem foldl_mem_preserve {α β : Type} (Q : β → Prop) (f : List β → α → List β) :
    ∀ (l : List α) (init : List β),
      (∀ e ∈ init, Q e) →
      (∀ acc a, a ∈ l → (∀ e ∈ acc, Q e) → ∀ e ∈ f acc a, Q e) →
      ∀ e ∈ l.foldl f init, Q e := by
  intro l
  induction l with
  | nil => intro init h0 _; exact h0
  | cons x xs ih =>
      intro init h0 hstep
      simp only [List.foldl_cons]
      exact ih (f init x) (hstep init x (List.mem_cons_self _ _) h0)
        (fun acc a ha hacc => hstep acc a (List.mem_cons_of_mem _ ha) hacc)

theorem determineEdges_mem (vertices : List Vertex) :
    ∀ e ∈ determineEdges vertices, ∃ v ∈ vertices, ∃ w ∈ vertices,
      v.id ≠ w.id ∧ (overlap v.value w.value).weight ≠ 0 ∧
      e.source = v ∧ e.sink = w ∧ edgeDataOk e := by
  unfold determineEdges
  set Q : Edge → Prop := fun e => ∃ v ∈ vertices, ∃ w ∈ vertices,
      v.id ≠ w.id ∧ (overlap v.value w.value).weight ≠ 0 ∧
      e.source = v ∧ e.sink = w ∧ edgeDataOk e with hQ
  show ∀ e ∈ _, Q e
  apply foldl_mem_preserve Q _ vertices []
    (fun e he => absurd he (List.not_mem_nil e))
  intro acc v hv hacc
  apply foldl_mem_preserve Q _ vertices acc hacc
  intro acc2 w hw hacc2
  by_cases hid : v.id ≠ w.id
  · rw [if_pos hid]
    by_cases hwt : (overlap v.value w.value).weight ≠ 0
    · rw [if_pos hwt]
      intro e he
      unfold addEdge at he
      rcases List.mem_append.mp he with h | h
      · exact hacc2 e h
      · have he' : e = ⟨nextEdgeId acc2, v, w, (overlap v.value w.value).weight,
            (overlap v.value w.value).ovMatch, (overlap v.value w.value).prefixStart,
            (overlap v.value w.value).prefixEnd⟩ := by
          simpa using h
        refine ⟨v, hv, w, hw, hid, hwt, ?_, ?_, ?_⟩
        · rw [he']
        · rw [he']
        · rw [he']
          exact ⟨rfl, rfl, rfl, rfl⟩
    · rw [if_neg hwt]
      exact hacc2
  · rw [if_neg hid]
    exact hacc2

theorem determineEdges_eq_nil (vertices : List Vertex)
    (h : ∀ v ∈ vertices, ∀ w ∈ vertices, v.id ≠ w.id →
      (overlap v.value w.value).weight = 0) :
    determineEdges vertices = [] := by
  unfold determineEdges
  apply foldl_id_of_step_id
  intro acc v hv
  apply foldl_id_of_step_id
  intro acc2 w hw
  by_cases hid : v.id ≠ w.id
  · rw [if_pos hid, if_neg]
    simpa using h v hv w hw hid
  · rw [if_neg hid]

/-- The freshly built graph satisfies the invariant. -/
theorem inv_build (fs : List (List Char)) (b : Bool) :
    GraphInv (buildFromFragments fs b) := by
  constructor
  · intro e he
    have hmem := determineEdges_mem (buildVertices fs) e he
    obtain ⟨v, hv, w, hw, hid, hwt, hsrc, hsnk, hdata⟩ := hmem
    refine ⟨hdata, ?_, ?_, ?_, ?_⟩
    · rw [hdata.1, hsrc, hsnk]
      omega
    · rw [hsrc, hsnk]
      exact hid
    · rw [hsrc]
      exact hv
    · rw [hsnk]
      exact hw
  · show ((buildVertices fs).map Vertex.id).Nodup
    rw [buildVertices_eq_canon, canonVerts_ids fs 0]
    exact List.nodup_range' _ _

end InvariantDefs

section ContractLemmas

/-- Extending the prefix-side string on the right preserves an overlap
witness (the merged vertex starts with the old sink's sequence). -/
theorem isOverlapLen_append_right {x s : List Char} {L : Nat} (r : List Char)
    (h : isOverlapLen x s L) : isOverlapLen x (s ++ r) L := by
  obtain ⟨h1, h2, h3⟩ := h
  refine ⟨h1, by rw [List.length_append]; omega, ?_⟩
  rw [List.take_append_of_le_length h2]
  exact h3

/-- Extending the suffix-side string on the left preserves an overlap
witness (the merged vertex ends with the old sink's sequence). -/
theorem isOverlapLen_append_left {t y : List Char} {L : Nat} (u : List Char)
    (h : isOverlapLen t y L) : isOverlapLen (u ++ t) y L := by
  obtain ⟨h1, h2, h3⟩ := h
  refine ⟨by rw [List.length_append]; omega, h2, ?_⟩
  rw [List.length_append]
  have hidx : u.length + t.length - L = u.length + (t.length - L) := by omega
  rw [hidx, List.drop_append_eq_append_drop, List.drop_eq_nil_of_le (by omega)]
  simp only [List.nil_append]
  have hidx2 : u.length + (t.length - L) - u.length = t.length - L := by omega
  rw [hidx2]
  exact h3

/-- `source.value + sink.value[W:]` both starts with the source sequence and
ends with the sink sequence, because the length-`W` prefix of the sink is a
suffix of the source. -/
theorem merged_decomp {s t : List Char} {W : Nat} (hov : isOverlapLen s t W) :
    s ++ t.drop W = s.take (s.length - W) ++ t := by
  obtain ⟨h1, h2, h3⟩ := hov
  conv_lhs => rw [← List.take_append_drop (s.length - W) s]
  rw [List.append_assoc, h3, List.take_append_drop]

theorem redirect_sink_case (mergedV : Vertex) (sid kid : Nat) (e : Edge)
    (hks : e.sink.id = sid) (_hkt : e.sink.id ≠ kid)
    (hs1 : e.source.id ≠ sid) (hs2 : e.source.id ≠ kid) :
    redirectEdge mergedV sid kid e =
      { e with sink := mergedV,
               weight := (overlap e.source.value mergedV.value).weight,
               ovMatch := (overlap e.source.value mergedV.value).ovMatch,
               posStart := (overlap e.source.value mergedV.value).prefixStart,
               posEnd := (overlap e.source.value mergedV.value).prefixEnd } := by
  simp [redirectEdge, hks, hs1, hs2]

theorem redirect_source_case (mergedV : Vertex) (sid kid : Nat) (e : Edge)
    (hk1 : e.sink.id ≠ kid) (hk2 : e.sink.id ≠ sid)
    (hsr : e.source.id = kid) (_hsr2 : e.source.id ≠ sid) :
    redirectEdge mergedV sid kid e =
      { e with source := mergedV,
               weight := (overlap mergedV.value e.sink.value).weight,
               ovMatch := (overlap mergedV.value e.sink.value).ovMatch,
               posStart := (overlap mergedV.value e.sink.value).prefixStart,
               posEnd := (overlap mergedV.value e.sink.value).prefixEnd } := by
  simp [redirectEdge, hk1, hk2, hsr]

theorem redirect_id_case (mergedV : Vertex) (sid kid : Nat) (e : Edge)
    (hk1 : e.sink.id ≠ kid) (hk2 : e.sink.id ≠ sid)
    (hs1 : e.source.id ≠ kid) (hs2 : e.source.id ≠ sid) :
    redirectEdge mergedV sid kid e = e := by
  simp [redirectEdge, hk1, hk2, hs1, hs2]

theorem contractEdge_vertices (g : OverlapGraph) (m : Edge) :
    (contractEdge g m).vertices =
      ((g.vertices ++ [(⟨nextVertexId g.vertices,
          m.source.value ++ m.sink.value.drop (m.posEnd.getD 0)⟩ : Vertex)]).erase
        m.source).erase m.sink := rfl

theorem contractEdge_edges (g : OverlapGraph) (m : Edge) :
    (contractEdge g m).edges =
      ((((g.edges.erase m).filter (fun e => !(e.source.id == m.source.id))).filter
          (fun e => !(e.sink.id == m.source.id && e.source.id == m.sink.id))).filter
          (fun e => !(e.sink.id == m.sink.id))).map
        (redirectEdge (⟨nextVertexId g.vertices,
          m.source.value ++ m.sink.value.drop (m.posEnd.getD 0)⟩ : Vertex)
          m.source.id m.sink.id) := rfl

/-- Core preservation result: contracting any edge present in an
invariant-satisfying graph keeps the invariant, and removes exactly one
vertex. -/
theorem inv_contract {g : OverlapGraph} {m : Edge}
    (hinv : GraphInv g) (hm : m ∈ g.edges) :
    GraphInv (contractEdge g m) ∧
    (contractEdge g m).vertices.length + 1 = g.vertices.length := by
  obtain ⟨hedges, hnodup⟩ := hinv
  obtain ⟨hmdata, hmpos, hmneq, hsmem, htmem⟩ := hedges m hm
  have hWpos : 0 < (overlap m.source.value m.sink.value).weight := by
    rw [← hmdata.1]; exact hmpos
  have hposEnd : m.posEnd.getD 0 = (overlap m.source.value m.sink.value).weight := by
    rw [hmdata.2.2.2, (overlap_pos_fields _ _ hWpos).1]
    rfl
  have hovW : isOverlapLen m.source.value m.sink.value
      ((overlap m.source.value m.sink.value).weight) :=
    (overlap_spec m.source.value m.sink.value).1
  set mv : Vertex := ⟨nextVertexId g.vertices,
      m.source.value ++ m.sink.value.drop (m.posEnd.getD 0)⟩ with hmv
  have hmvval : mv.value =
      m.source.value ++ m.sink.value.drop ((overlap m.source.value m.sink.value).weight) := by
    simp only [hmv, hposEnd]
  have hmvid : mv.id = nextVertexId g.vertices := rfl
  have hfresh : ∀ v ∈ g.vertices, v.id < nextVertexId g.vertices := by
    intro v hv
    have hle := le_foldl_max (g.vertices.map Vertex.id) 0 v.id
      (List.mem_map_of_mem Vertex.id hv)
    unfold nextVertexId
    omega
  have hsne_t : m.source ≠ m.sink := fun hc => hmneq (by rw [hc])
  have hverts := contractEdge_vertices g m
  have hkeep : ∀ v ∈ g.vertices, v.id ≠ m.source.id → v.id ≠ m.sink.id →
      v ∈ (contractEdge g m).vertices := by
    intro v hv hvs hvt
    rw [hverts]
    refine (List.mem_erase_of_ne ?_).mpr
      ((List.mem_erase_of_ne ?_).mpr (List.mem_append_left _ hv))
    · exact fun hc => hvt (by rw [hc])
    · exact fun hc => hvs (by rw [hc])
  have hmvmem : mv ∈ (contractEdge g m).vertices := by
    rw [hverts]
    have h1 : mv ∈ g.vertices ++ [mv] := by simp
    refine (List.mem_erase_of_ne ?_).mpr ((List.mem_erase_of_ne ?_).mpr h1)
    · intro hc
      have h2 := hfresh m.sink htmem
      rw [← hc, hmvid] at h2
      omega
    · intro hc
      have h2 := hfresh m.source hsmem
      rw [← hc, hmvid] at h2
      omega
  have hcount : (contractEdge g m).vertices.length + 1 = g.vertices.length := by
    rw [hverts]
    have h1 : m.source ∈ g.vertices ++ [mv] := List.mem_append_left _ hsmem
    have h2 : m.sink ∈ (g.vertices ++ [mv]).erase m.source :=
      (List.mem_erase_of_ne (Ne.symm hsne_t)).mpr (List.mem_append_left _ htmem)
    rw [List.length_erase_of_mem h2, List.length_erase_of_mem h1, List.length_append]
    have h3 : 0 < g.vertices.length :=
      List.length_pos.mpr (fun hc => absurd (hc ▸ hsmem) (List.not_mem_nil _))
    simp only [List.length_singleton]
    omega
  have hnodup2 : ((contractEdge g m).vertices.map Vertex.id).Nodup := by
    rw [hverts]
    have hsub : List.Sublist (((g.vertices ++ [mv]).erase m.source).erase m.sink)
        (g.vertices ++ [mv]) :=
      (List.erase_sublist _ _).trans (List.erase_sublist _ _)
    refine List.Nodup.sublist (hsub.map Vertex.id) ?_
    rw [List.map_append]
    refine List.Nodup.append hnodup (List.nodup_singleton _) ?_
    intro a ha hb
    simp only [List.map_cons, List.map_nil, List.mem_singleton] at hb
    obtain ⟨v, hv, hva⟩ := List.mem_map.mp ha
    have h2 := hfresh v hv
    rw [hva, hb] at h2
    omega
  have hidinj : ∀ v ∈ g.vertices, ∀ w ∈ g.vertices, v.id = w.id → v = w :=
    fun v hv w hw h => List.inj_on_of_nodup_map hnodup hv hw h
  have hedges5 := contractEdge_edges g m
  refine ⟨⟨?_, hnodup2⟩, hcount⟩
  intro e' he'
  rw [hedges5] at he'
  obtain ⟨e, he4, rfl⟩ := List.mem_map.mp he'
  obtain ⟨he3, hc4⟩ := List.mem_filter.mp he4
  obtain ⟨he2, hc3⟩ := List.mem_filter.mp he3
  obtain ⟨he1, hc2⟩ := List.mem_filter.mp he2
  have heg : e ∈ g.edges := List.mem_of_mem_erase he1
  obtain ⟨hedata, hepos, heneq, hesrc, hesnk⟩ := hedges e heg
  have hsnk_ne_t : e.sink.id ≠ m.sink.id := by simpa using hc4
  have hsrc_ne_s : e.source.id ≠ m.source.id := by simpa using hc2
  have hnot_both : e.sink.id = m.source.id → e.source.id ≠ m.sink.id := by
    have h := hc3
    simp at h
    tauto
  by_cases hcase : e.sink.id = m.source.id
  · -- incoming edge of the old source: redirect its sink to the merged vertex
    have hsrc_ne_t : e.source.id ≠ m.sink.id := hnot_both hcase
    have hesnk_eq : e.sink = m.source := hidinj _ hesnk _ hsmem hcase
    rw [redirect_sink_case mv m.source.id m.sink.id e hcase hsnk_ne_t hsrc_ne_s hsrc_ne_t]
    refine ⟨⟨rfl, rfl, rfl, rfl⟩, ?_, ?_, ?_, ?_⟩
    · show 0 < (overlap e.source.value mv.value).weight
      have hwold : 0 < (overlap e.source.value m.source.value).weight := by
        have h2 := hepos
        rw [hedata.1, hesnk_eq] at h2
        exact h2
      have hext : isOverlapLen e.source.value mv.value
          ((overlap e.source.value m.source.value).weight) := by
        rw [hmvval]
        exact isOverlapLen_append_right _ (overlap_spec e.source.value m.source.value).1
      have hge := (overlap_spec e.source.value mv.value).2.1 _ hext
      omega
    · show e.source.id ≠ mv.id
      intro hc
      have h2 := hfresh e.source hesrc
      rw [hc, hmvid] at h2
      omega
    · exact hkeep e.source hesrc hsrc_ne_s hsrc_ne_t
    · exact hmvmem
  · by_cases hsrc_t : e.source.id = m.sink.id
    · -- outgoing edge of the old sink: redirect its source to the merged vertex
      have hesrc_eq : e.source = m.sink := hidinj _ hesrc _ htmem hsrc_t
      rw [redirect_source_case mv m.source.id m.sink.id e hsnk_ne_t hcase hsrc_t hsrc_ne_s]
      refine ⟨⟨rfl, rfl, rfl, rfl⟩, ?_, ?_, ?_, ?_⟩
      · show 0 < (overlap mv.value e.sink.value).weight
        have hwold : 0 < (overlap m.sink.value e.sink.value).weight := by
          have h2 := hepos
          rw [hedata.1, hesrc_eq] at h2
          exact h2
        have hext : isOverlapLen mv.value e.sink.value
            ((overlap m.sink.value e.sink.value).weight) := by
          rw [hmvval, merged_decomp hovW]
          exact isOverlapLen_append_left _ (overlap_spec m.sink.value e.sink.value).1
        have hge := (overlap_spec mv.value e.sink.value).2.1 _ hext
        omega
      · show mv.id ≠ e.sink.id
        intro hc
        have h2 := hfresh e.sink hesnk
        rw [← hc, hmvid] at h2
        omega
      · exact hmvmem
      · exact hkeep e.sink hesnk hcase hsnk_ne_t
    · -- untouched edge
      rw [redirect_id_case mv m.source.id m.sink.id e hsnk_ne_t hcase hsrc_t hsrc_ne_s]
      exact ⟨hedata, hepos, heneq, hkeep e.source hesrc hsrc_ne_s hsrc_t,
        hkeep e.sink hesnk hcase hsnk_ne_t⟩

end ContractLemmas

section LoopLemmas

theorem inv_mergeRound {g : OverlapGraph} (hinv : GraphInv g) (p : Nat) :
    GraphInv (mergeRound g p) := by
  unfold mergeRound
  cases hc : chooseEdge g.edges g.randomTiebreak p with
  | none => exact hinv
  | some m => exact (inv_contract hinv (chooseEdge_mem hc)).1

theorem mergeRound_vertex_count {g : OverlapGraph} (hinv : GraphInv g) (p : Nat)
    (h : g.edges ≠ []) :
    (mergeRound g p).vertices.length + 1 = g.vertices.length := by
  unfold mergeRound
  cases hc : chooseEdge g.edges g.randomTiebreak p with
  | none => exact absurd (chooseEdge_eq_none hc) h
  | some m => exact (inv_contract hinv (chooseEdge_mem hc)).2

theorem inv_runSteps (pick : Nat → Nat) :
    ∀ (n k : Nat) (g : OverlapGraph), GraphInv g → GraphInv (runSteps pick k n g) := by
  intro n
  induction n with
  | zero => intro k g hinv; exact hinv
  | succ n ih =>
      intro k g hinv
      by_cases hg : g.edges = []
      · simpa [runSteps, hg] using hinv
      · simp only [runSteps, if_neg hg]
        exact ih (k + 1) (mergeRound g (pick k)) (inv_mergeRound hinv (pick k))

theorem runSteps_of_edges_nil (pick : Nat → Nat) {g : OverlapGraph}
    (h : g.edges = []) : ∀ n k, runSteps pick k n g = g := by
  intro n k
  cases n with
  | zero => rfl
  | succ n => simp [runSteps, h]

/-- Peeling the last iteration off `runSteps`. -/
theorem runSteps_succ_back (pick : Nat → Nat) :
    ∀ (n k : Nat) (g : OverlapGraph),
      runSteps pick k (n + 1) g =
        if (runSteps pick k n g).edges = [] then runSteps pick k n g
        else mergeRound (runSteps pick k n g) (pick (k + n)) := by
  intro n
  induction n with
  | zero =>
      intro k g
      by_cases hg : g.edges = []
      · simp [runSteps, hg]
      · simp [runSteps, hg]
  | succ n ih =>
      intro k g
      by_cases hg : g.edges = []
      · rw [runSteps_of_edges_nil pick hg, runSteps_of_edges_nil pick hg, if_pos hg]
      · have hL : runSteps pick k (n + 1 + 1) g =
            runSteps pick (k + 1) (n + 1) (mergeRound g (pick k)) := by
          simp [runSteps, hg]
        have hR : runSteps pick k (n + 1) g =
            runSteps pick (k + 1) n (mergeRound g (pick k)) := by
          simp [runSteps, hg]
        rw [hL, ih (k + 1) (mergeRound g (pick k)), hR]
        have hidx : k + 1 + n = k + (n + 1) := by omega
        rw [hidx]

/-- The loop drains the edge list within `|edges|` iterations. -/
theorem runSteps_eventually_nil (pick : Nat → Nat) :
    ∀ (n k : Nat) (g : OverlapGraph), g.edges.length ≤ n →
      (runSteps pick k n g).edges = [] := by
  intro n
  induction n with
  | zero =>
      intro k g h
      have hg : g.edges = [] := List.length_eq_zero.mp (by omega)
      exact (runSteps_of_edges_nil pick hg 0 k).symm ▸ hg
  | succ n ih =>
      intro k g h
      by_cases hg : g.edges = []
      · rw [runSteps_of_edges_nil pick hg]
        exact hg
      · simp only [runSteps, if_neg hg]
        apply ih
        have := mergeRound_edges_lt g (pick k) hg
        omega

/-- Unfolding equation for the `while` loop. -/
theorem mergeLoop_eq (pick : Nat → Nat) (k : Nat) (g : OverlapGraph) :
    mergeLoop pick k g =
      if g.edges = [] then g else mergeLoop pick (k + 1) (mergeRound g (pick k)) := by
  by_cases h : g.edges = []
  · rw [if_pos h]
    rw [mergeLoop]
    exact dif_pos h
  · rw [if_neg h]
    rw [mergeLoop]
    exact dif_neg h

/-- The final graph of the loop is the `|edges|`-step iterate. -/
theorem mergeLoop_eq_runSteps (pick : Nat → Nat) :
    ∀ (n k : Nat) (g : OverlapGraph), g.edges.length ≤ n →
      mergeLoop pick k g = runSteps pick k n g := by
  intro n
  induction n with
  | zero =>
      intro k g h
      have hg : g.edges = [] := List.length_eq_zero.mp (by omega)
      rw [mergeLoop_eq, if_pos hg, runSteps_of_edges_nil pick hg]
  | succ n ih =>
      intro k g h
      by_cases hg : g.edges = []
      · rw [mergeLoop_eq, if_pos hg, runSteps_of_edges_nil pick hg]
      · rw [mergeLoop_eq, if_neg hg]
        simp only [runSteps, if_neg hg]
        apply ih
        have := mergeRound_edges_lt g (pick k) hg
        omega

/-- In deterministic mode the selection ignores the random oracle. -/
theorem chooseEdge_false_pick (edges : List Edge) (p q : Nat) :
    chooseEdge edges false p = chooseEdge edges false q := by
  cases edges with
  | nil => rfl
  | cons e es =>
      rw [chooseEdge_cons, chooseEdge_cons]
      simp

theorem mergeRound_randomTiebreak (g : OverlapGraph) (p : Nat) :
    (mergeRound g p).randomTiebreak = g.randomTiebreak := by
  unfold mergeRound
  cases chooseEdge g.edges g.randomTiebreak p with
  | none => rfl
  | some m => rfl

theorem mergeRound_false_pick {g : OverlapGraph} (hrt : g.randomTiebreak = false)
    (p q : Nat) : mergeRound g p = mergeRound g q := by
  unfold mergeRound
  rw [hrt, chooseEdge_false_pick g.edges p q]

/-- The whole loop is oblivious to the oracle (and to the iteration counter)
when the random-tiebreak flag is off. -/
theorem mergeLoop_false_pick (p1 p2 : Nat → Nat) :
    ∀ (n : Nat) (g : OverlapGraph) (k1 k2 : Nat), g.edges.length ≤ n →
      g.randomTiebreak = false → mergeLoop p1 k1 g = mergeLoop p2 k2 g := by
  intro n
  induction n with
  | zero =>
      intro g k1 k2 hlen hrt
      have hg : g.edges = [] := List.length_eq_zero.mp (by omega)
      rw [mergeLoop_eq p1 k1 g, mergeLoop_eq p2 k2 g, if_pos hg, if_pos hg]
  | succ n ih =>
      intro g k1 k2 hlen hrt
      by_cases hg : g.edges = []
      · rw [mergeLoop_eq p1 k1 g, mergeLoop_eq p2 k2 g, if_pos hg, if_pos hg]
      · rw [mergeLoop_eq p1 k1 g, mergeLoop_eq p2 k2 g, if_neg hg, if_neg hg]
        rw [mergeRound_false_pick hrt (p1 k1) (p2 k2)]
        apply ih
        · have := mergeRound_edges_lt g (p2 k2) hg
          omega
        · rw [mergeRound_randomTiebreak]
          exact hrt

end LoopLemmas

/-! ## Orientation pre-pass of `assembly_with_nx/graph/utils.py`

A Python `KeyError` from the `COMPLEMENTS` dict and the
`UnboundLocalError` of `calc_orientation` on an empty fragment list are
modelled by `none`. -/

/-- The `COMPLEMENTS` dict: defined keys `A, G, C, T`; any other key raises
`KeyError`, modelled as `none`. -/
def complementChar (c : Char) : Option Char :=
  if c = 'A' then some 'T'
  else if c = 'G' then some 'C'
  else if c = 'C' then some 'G'
  else if c = 'T' then some 'A'
  else none

/-- The list comprehension `[COMPLEMENTS[l] for l in list(fragment)]`. -/
def complementList : List Char → Option (List Char)
  | [] => some []
  | c :: cs =>
      match complementChar c, complementList cs with
      | some d, some ds => some (d :: ds)
      | _, _ => none

/-- `complement(fragment)`: map each base through `COMPLEMENTS`, then
reverse and join. -/
def complement (fragment : List Char) : Option (List Char) :=
  (complementList fragment).map List.reverse

/-- `weight(f1, f2) = overlap(f1, f2)["weight"]`. -/
def weightFn (fragmentOne fragmentTwo : List Char) : Nat :=
  (overlap fragmentOne fragmentTwo).weight

/-- `same(f1, f2) = max(weight(f1, f2), weight(f2, f1))`. -/
def sameScore (fragmentOne fragmentTwo : List Char) : Nat :=
  max (weightFn fragmentOne fragmentTwo) (weightFn fragmentTwo fragmentOne)

/-- `opp(f1, f2)`: complement `f2` (possible `KeyError`), then as `same`. -/
def oppScore (fragmentOne fragmentTwo : List Char) : Option Nat :=
  (complement fragmentTwo).map
    (fun cTwo => max (weightFn fragmentOne cTwo) (weightFn cTwo fragmentOne))

/-- The `for fragment in O:` accumulation inside one iteration of
`calc_orientation`'s while loop: returns the pair `(sum_same, sum_opp)`
for the popped candidate `f`, or `none` on a `KeyError`. -/
def sumScores (O : List (List Char)) (f : List Char) : Option (Nat × Nat) :=
  O.foldl
    (fun acc g =>
      match acc with
      | none => none
      | some (ss, so) =>
          match oppScore g f, oppScore f g with
          | some o1, some o2 =>
              some (ss + sameScore g f + sameScore f g, so + o1 + o2)
          | _, _ => none)
    (some (0, 0))

/-- The `while others:` loop of `calc_orientation`.  The Python function
returns `O, sum_same + sum_opp` where the two sums are local to the *last*
loop iteration (they are reset to 0 each time around); if the loop never
ran they are unbound and Python raises `UnboundLocalError`, modelled by the
`none` of the `lastSums` accumulator. -/
def calcOrientationGo : List (List Char) → List (List Char) → Option (Nat × Nat) →
    Option (List (List Char) × Nat)
  | O, [], lastSums => lastSums.map (fun p => (O, p.1 + p.2))
  | O, f :: rest, _ =>
      match sumScores O f with
      | none => none
      | some (ss, so) =>
          if ss < so then
            match complement f with
            | none => none
            | some cf => calcOrientationGo (O ++ [cf]) rest (some (ss, so))
          else calcOrientationGo (O ++ [f]) rest (some (ss, so))

/-- `calc_orientation(start_fragment, fragments)`. -/
def calcOrientation (startFragment : List Char) (fragments : List (List Char)) :
    Option (List (List Char) × Nat) :=
  calcOrientationGo [startFragment] fragments none

/-- `_get_orientations_input`: for each fragment, pair it with a copy of
the list with the first equal element removed. -/
def getOrientationsInput (fragments : List (List Char)) :
    List (List Char × List (List Char)) :=
  fragments.map (fun f => (f, fragments.erase f))

/-- Run `calc_orientation` for every seed, stopping at the first raised
exception (as the Python `for` loop would). -/
def runTrials : List (List Char × List (List Char)) →
    Option (List (List (List Char) × Nat))
  | [] => some []
  | p :: ps =>
      match calcOrientation p.1 p.2, runTrials ps with
      | some r, some rs => some (r :: rs)
      | _, _ => none

/-- `sorted(orientations_with_weight, key=lambda e: e[1])[-1]`: the last
entry attaining the maximal weight (stable sort); `IndexError` on an empty
list is `none`. -/
def selectLastMaxOrientation : List (List (List Char) × Nat) → Option (List (List Char))
  | [] => none
  | x :: xs =>
      some (xs.foldl (fun best r => if best.2 ≤ r.2 then r else best) x).1

/-- `get_good_orientation(fragments)`. -/
def getGoodOrientation (fragments : List (List Char)) : Option (List (List Char)) :=
  match runTrials (getOrientationsInput fragments) with
  | none => none
  | some results => selectLastMaxOrientation results

section ComplementLemmas

/-- Spec-side alphabet test: membership in `{A, C, G, T}`. -/
def isBase (c : Char) : Bool :=
  c == 'A' || c == 'C' || c == 'G' || c == 'T'

/-- Spec-side Watson–Crick swap (A↔T, C↔G). -/
def baseSwap (c : Char) : Char :=
  if c = 'A' then 'T'
  else if c = 'T' then 'A'
  else if c = 'C' then 'G'
  else if c = 'G' then 'C'
  else c

theorem complementChar_eq (c : Char) :
    complementChar c = if isBase c then some (baseSwap c) else none := by
  unfold complementChar isBase baseSwap
  by_cases hA : c = 'A'
  · simp [hA]
  · by_cases hG : c = 'G'
    · simp [hA, hG]
    · by_cases hC : c = 'C'
      · simp [hA, hG, hC]
      · by_cases hT : c = 'T'
        · simp [hA, hG, hC, hT]
        · simp [hA, hG, hC, hT]

theorem baseSwap_isBase {c : Char} (h : isBase c = true) : isBase (baseSwap c) = true := by
  unfold isBase at h ⊢
  unfold baseSwap
  by_cases hA : c = 'A'
  · simp [hA]
  · by_cases hT : c = 'T'
    · simp [hA, hT]
    · by_cases hC : c = 'C'
      · simp [hA, hT, hC]
      · by_cases hG : c = 'G'
        · simp [hA, hT, hC, hG]
        · simp [hA, hT, hC, hG] at h

theorem complementList_eq (s : List Char) :
    complementList s =
      if ∀ c ∈ s, isBase c = true then some (s.map baseSwap) else none := by
  induction s with
  | nil => simp [complementList]
  | cons c cs ih =>
      unfold complementList
      rw [ih, complementChar_eq]
      by_cases hc : isBase c = true
      · by_cases hcs : ∀ d ∈ cs, isBase d = true
        · rw [if_pos hc, if_pos hcs, if_pos (by
            intro d hd
            rcases List.mem_cons.mp hd with rfl | hd'
            · exact hc
            · exact hcs d hd')]
          rfl
        · rw [if_pos hc, if_neg hcs, if_neg (by
            intro hall
            exact hcs (fun d hd => hall d (List.mem_cons_of_mem _ hd)))]
      · rw [if_neg hc]
        have hnall : ¬ (∀ d ∈ c :: cs, isBase d = true) := by
          intro hall
          exact hc (hall c (List.mem_cons_self _ _))
        rw [if_neg hnall]

end ComplementLemmas

/-! ## The networkx variant (`assembly_with_nx/graph/__init__.py`)

`nx.DiGraph` is modelled by a node list (insertion order) and a flat edge
list (insertion order).  `G.edges(data=True)` iterates source nodes in node
insertion order and, per source, targets in their insertion order; since
additions append and removals preserve relative order, that view is the
node-ordered grouping of the flat list (`nxEdgesView`).  The paths nx would
raise on (`remove_edge` of an absent edge, attribute lookup of an absent
node, `add_edge` creating an endpoint node without a `read` attribute) are
never taken by this program, so the model makes them total no-ops/defaults
with a comment at each. -/

/-- A networkx node with its `read` attribute. -/
structure NxNode where
  id : Nat
  read : List Char
deriving Repr, DecidableEq

/-- A networkx edge with its `weight`/`match`/`pos_start`/`pos_end` data. -/
structure NxEdge where
  source : Nat
  sink : Nat
  weight : Nat
  ovMatch : Option (List Char)
  posStart : Option Nat
  posEnd : Option Nat
deriving Repr, DecidableEq

structure NxDiGraph where
  nodes : List NxNode
  edges : List NxEdge
deriving Repr, DecidableEq

def emptyNxGraph : NxDiGraph := ⟨[], []⟩

/-- `G.add_node(i, read=f)`: update the attribute if the node exists, else
append. -/
def nxAddNode (g : NxDiGraph) (i : Nat) (read : List Char) : NxDiGraph :=
  if g.nodes.any (fun n => n.id == i) then
    { g with nodes := g.nodes.map (fun n => if n.id == i then ⟨n.id, read⟩ else n) }
  else
    { g with nodes := g.nodes ++ [⟨i, read⟩] }

/-- `G.add_edge(u, v, …)`: replace the data if the edge exists, else append.
(nx would also create missing endpoint nodes; every call in this program
has both endpoints present already, so that branch is omitted.) -/
def nxAddEdge (g : NxDiGraph) (u v : Nat) (ov : OvInfo) : NxDiGraph :=
  let e : NxEdge := ⟨u, v, ov.weight, ov.ovMatch, ov.prefixStart, ov.prefixEnd⟩
  if g.edges.any (fun x => x.source == u && x.sink == v) then
    { g with edges := g.edges.map (fun x => if x.source == u && x.sink == v then e else x) }
  else
    { g with edges := g.edges ++ [e] }

/-- `G.remove_edge(u, v)` (total: nx raises when absent, a path this
program never takes). -/
def nxRemoveEdge (g : NxDiGraph) (u v : Nat) : NxDiGraph :=
  { g with edges := g.edges.filter (fun x => !(x.source == u && x.sink == v)) }

/-- `G.remove_node(i)`: drop the node and every incident edge. -/
def nxRemoveNode (g : NxDiGraph) (i : Nat) : NxDiGraph :=
  { nodes := g.nodes.filter (fun n => !(n.id == i)),
    edges := g.edges.filter (fun x => !(x.source == i || x.sink == i)) }

/-- `G.nodes[i]["read"]` (defaulting instead of nx's `KeyError`, never hit
here). -/
def nxRead (g : NxDiGraph) (i : Nat) : List Char :=
  ((g.nodes.find? (fun n => n.id == i)).map NxNode.read).getD []

def nxHasEdge (g : NxDiGraph) (u v : Nat) : Bool :=
  g.edges.any (fun x => x.source == u && x.sink == v)

def nxOutEdges (g : NxDiGraph) (u : Nat) : List NxEdge :=
  g.edges.filter (fun x => x.source == u)

def nxInEdges (g : NxDiGraph) (v : Nat) : List NxEdge :=
  g.edges.filter (fun x => x.sink == v)

/-- `list(G.edges(data=True))`: sources in node insertion order, targets in
adjacency insertion order. -/
def nxEdgesView (g : NxDiGraph) : List NxEdge :=
  g.nodes.flatMap (fun n => g.edges.filter (fun x => x.source == n.id))

/-- `sorted(G.edges(data=True), key=lambda e: e[2]["weight"])[-1]`: the last
maximum of the view under Python's stable sort. -/
def maxNxEdge : List NxEdge → Option NxEdge
  | [] => none
  | e :: es => some (es.foldl (fun best x => if best.weight ≤ x.weight then x else best) e)

/-- `build_overlap_graph(fragments)`: nodes are added *only* inside the
`if overlap_exists:` branch, together with the edge. -/
def nxBuildOverlapGraph (fragments : List (List Char)) : NxDiGraph :=
  fragments.enum.foldl
    (fun g p =>
      fragments.enum.foldl
        (fun g2 q =>
          if p.1 ≠ q.1 then
            let ov := overlap p.2 q.2
            if ov.weight ≠ 0 then
              nxAddEdge (nxAddNode (nxAddNode g2 p.1 p.2) q.1 q.2) p.1 q.1 ov
            else g2
          else g2)
        g)
    emptyNxGraph

/-- One iteration of `assembly_greedy`'s `while` body (lines 70–129):
select the maximal-weight edge, merge the fragments, add the merged node
(`max(G.nodes()) + 1`), drop the source's outgoing edges, the sink→source
edge and the sink's incoming edges, redirect the remaining edges touching
the old endpoints (recomputing via `overlap`), then remove both old
nodes. -/
def nxMergeRound (g : NxDiGraph) : NxDiGraph :=
  match maxNxEdge (nxEdgesView g) with
  | none => g
  | some m =>
      let oldSource := m.source
      let oldSink := m.sink
      let mergedFragment := nxRead g oldSource ++ (nxRead g oldSink).drop (m.posEnd.getD 0)
      let idMerged := (g.nodes.map NxNode.id).foldl max 0 + 1
      let g1 := nxAddNode g idMerged mergedFragment
      let g2 := (nxOutEdges g1 oldSource).foldl
        (fun h e => nxRemoveEdge h e.source e.sink) g1
      let g3 := if nxHasEdge g2 oldSink oldSource then nxRemoveEdge g2 oldSink oldSource
        else g2
      let g4 := (nxInEdges g3 oldSink).foldl
        (fun h e => nxRemoveEdge h e.source e.sink) g3
      let g5 := (nxEdgesView g4).foldl
        (fun h e =>
          let h1 :=
            if e.sink = oldSink ∨ e.sink = oldSource then
              let ov := overlap (nxRead h e.source) (nxRead h idMerged)
              nxAddEdge (nxRemoveEdge h e.source e.sink) e.source idMerged ov
            else h
          if e.source = oldSink ∨ e.source = oldSource then
            let ov := overlap (nxRead h1 idMerged) (nxRead h1 e.sink)
            nxAddEdge (nxRemoveEdge h1 e.source e.sink) idMerged e.sink ov
          else h1)
        g4
      let g6 := nxRemoveNode g5 oldSource
      nxRemoveNode g6 oldSink

/-- The `while overlap_graph.number_of_edges() != 0:` loop.  Each Python
iteration removes at least the selected edge, so the loop runs at most
`number_of_edges()` times; that count is supplied as structural fuel (the
fuel-exhausted branch is unreachable in the program). -/
def nxGreedyLoop : Nat → NxDiGraph → NxDiGraph
  | 0, g => g
  | fuel + 1, g => if g.edges.length = 0 then g else nxGreedyLoop fuel (nxMergeRound g)

/-- Result of `assembly_greedy`: a read, the leftover node list, or the
`raise ValueError("No nodes in the Graph left. That shouldn't happen!")`. -/
inductive NxResult where
  | assembled : List Char → NxResult
  | leftover : List NxNode → NxResult
  | error : NxResult
deriving Repr, DecidableEq

/-- `assembly_greedy(overlap_graph)` (print flags omitted: rendering only). -/
def nxAssemblyGreedy (g : NxDiGraph) : NxResult :=
  let g2 := nxGreedyLoop g.edges.length g
  match g2.nodes with
  | [n] => NxResult.assembled n.read
  | [] => NxResult.error
  | ns => NxResult.leftover ns

/-- With all pairwise overlaps zero, `build_overlap_graph` never reaches an
`add_node`/`add_edge` call, so the graph is empty. -/
theorem nxBuild_zero_overlap_empty (fs : List (List Char))
    (hz : ∀ i j : Fin fs.length, (i : Nat) ≠ (j : Nat) →
      (overlap (fs.get i) (fs.get j)).weight = 0) :
    nxBuildOverlapGraph fs = emptyNxGraph := by
  unfold nxBuildOverlapGraph
  apply foldl_id_of_step_id
  intro g p hp
  apply foldl_id_of_step_id
  intro g2 q hq
  by_cases hij : p.1 ≠ q.1
  · rw [if_pos hij, if_neg]
    have hp' := List.mem_enum_iff_getElem?.mp hp
    have hq' := List.mem_enum_iff_getElem?.mp hq
    obtain ⟨hpi, hpv⟩ := List.getElem?_eq_some.mp hp'
    obtain ⟨hqi, hqv⟩ := List.getElem?_eq_some.mp hq'
    have hz' := hz ⟨p.1, hpi⟩ ⟨q.1, hqi⟩ hij
    rw [List.get_eq_getElem, List.get_eq_getElem] at hz'
    rw [hpv, hqv] at hz'
    simpa using hz'
  · rw [if_neg hij]

/-! ## Claim theorems -/

/-- C1: for every pair of strings `a`, `b`, `overlap(a, b)["weight"]` is the
length of the longest suffix of `a` equal to a prefix of `b` of the same
length; when no nonzero-length suffix of `a` equals a prefix of `b`, the
weight is `0`. -/
theorem overlap_weight_maximal (a b : List Char) :
    isOverlapLen a b ((overlap a b).weight) ∧
    (∀ L, isOverlapLen a b L → L ≤ (overlap a b).weight) ∧
    ((∀ L, 0 < L → ¬ isOverlapLen a b L) → (overlap a b).weight = 0) := by
  refine ⟨(overlap_spec a b).1, (overlap_spec a b).2.1, ?_⟩
  intro h
  by_contra hne
  exact h _ (Nat.pos_of_ne_zero hne) (overlap_spec a b).1

/-- Witness for C1 at `a = "ACG"`, `b = "CGT"`: the suffix `"CG"` of length 2
is a prefix of `b`, so the returned weight is at least 2, and the weight is
itself a valid overlap length. -/
theorem overlap_weight_maximal_witness :
    2 ≤ (overlap ['A', 'C', 'G'] ['C', 'G', 'T']).weight ∧
    isOverlapLen ['A', 'C', 'G'] ['C', 'G', 'T']
      ((overlap ['A', 'C', 'G'] ['C', 'G', 'T']).weight) :=
  ⟨(overlap_weight_maximal ['A', 'C', 'G'] ['C', 'G', 'T']).2.1 2 (by decide),
   (overlap_weight_maximal ['A', 'C', 'G'] ['C', 'G', 'T']).1⟩

/-- C9 counterexample: for `a = "A"`, `b = "C"` (no nonzero-length overlap)
the scorer returns weight 0 but the match field is `None` — not an empty
string, refuting the claim that the match is returned as an empty string. -/
theorem overlap_no_match_counterexample :
    (overlap ['A'] ['C']).weight = 0 ∧
    (overlap ['A'] ['C']).ovMatch = none ∧
    (overlap ['A'] ['C']).ovMatch ≠ some [] := by decide

/-- C9 (amended): with no nonzero-length overlap the scorer returns weight 0
and *no* match value (the Python dict holds `None` in the `overlap` key,
not an empty string). -/
theorem overlap_no_match_returns_none (a b : List Char)
    (h : ∀ L ∈ List.range (a.length + 1), 0 < L → ¬ isOverlapLen a b L) :
    (overlap a b).weight = 0 ∧ (overlap a b).ovMatch = none := by
  have hw : (overlap a b).weight = 0 := by
    by_contra hne
    have hpos : 0 < (overlap a b).weight := Nat.pos_of_ne_zero hne
    have hle : (overlap a b).weight ≤ a.length := (overlap_spec a b).1.1
    exact h _ (List.mem_range.mpr (by omega)) hpos (overlap_spec a b).1
  refine ⟨hw, ?_⟩
  rw [(overlap_spec a b).2.2.1 hw]
  rfl

/-- Witness for the amended C9 at `a = "A"`, `b = "C"`. -/
theorem overlap_no_match_returns_none_witness :
    (overlap ['A'] ['C']).weight = 0 ∧ (overlap ['A'] ['C']).ovMatch = none :=
  overlap_no_match_returns_none ['A'] ['C'] (by decide)

/-- C2: in every state the greedy assembler reaches (the built graph and
each graph after `n` contraction rounds, for any tie-break mode and any
random oracle), every edge's endpoints are vertices of the current graph
and its weight field equals the overlap score of the endpoints' current
sequences. -/
theorem edge_weight_consistent (fs : List (List Char)) (b : Bool) (pick : Nat → Nat)
    (n : Nat) :
    ∀ e ∈ (runSteps pick 0 n (buildFromFragments fs b)).edges,
      e.source ∈ (runSteps pick 0 n (buildFromFragments fs b)).vertices ∧
      e.sink ∈ (runSteps pick 0 n (buildFromFragments fs b)).vertices ∧
      e.weight = (overlap e.source.value e.sink.value).weight := by
  intro e he
  have hinv := inv_runSteps pick n 0 (buildFromFragments fs b) (inv_build fs b)
  obtain ⟨hd, hpos, hneq, hsrc, hsnk⟩ := hinv.1 e he
  exact ⟨hsrc, hsnk, hd.1⟩

/-- Witness for C2 on the freshly built graph of `["A", "A"]`, whose first
edge has weight 1 = overlap("A", "A"). -/
theorem edge_weight_consistent_witness :
    (⟨1, ⟨1, ['A']⟩, ⟨2, ['A']⟩, 1, some ['A'], some 0, some 1⟩ : Edge).source ∈
        (runSteps (fun _ => 0) 0 0 (buildFromFragments [['A'], ['A']] false)).vertices ∧
    (⟨1, ⟨1, ['A']⟩, ⟨2, ['A']⟩, 1, some ['A'], some 0, some 1⟩ : Edge).sink ∈
        (runSteps (fun _ => 0) 0 0 (buildFromFragments [['A'], ['A']] false)).vertices ∧
    (⟨1, ⟨1, ['A']⟩, ⟨2, ['A']⟩, 1, some ['A'], some 0, some 1⟩ : Edge).weight =
      (overlap (⟨1, ⟨1, ['A']⟩, ⟨2, ['A']⟩, 1, some ['A'], some 0, some 1⟩ : Edge).source.value
        (⟨1, ⟨1, ['A']⟩, ⟨2, ['A']⟩, 1, some ['A'], some 0, some 1⟩ : Edge).sink.value).weight :=
  edge_weight_consistent [['A'], ['A']] false (fun _ => 0) 0 _ (by decide)

/-- C5: in every state the greedy assembler reaches, every edge present in
the edge collection has weight strictly greater than 0 (zero overlap is
encoded by the absence of an edge). -/
theorem edge_weight_positive (fs : List (List Char)) (b : Bool) (pick : Nat → Nat)
    (n : Nat) :
    ∀ e ∈ (runSteps pick 0 n (buildFromFragments fs b)).edges, 0 < e.weight := by
  intro e he
  have hinv := inv_runSteps pick n 0 (buildFromFragments fs b) (inv_build fs b)
  exact (hinv.1 e he).2.1

/-- Witness for C5 on the freshly built graph of `["C", "C"]`. -/
theorem edge_weight_positive_witness :
    0 < (⟨1, ⟨1, ['C']⟩, ⟨2, ['C']⟩, 1, some ['C'], some 0, some 1⟩ : Edge).weight :=
  edge_weight_positive [['C'], ['C']] false (fun _ => 0) 0 _ (by decide)

/-- C4: whenever edges remain, the next contraction round removes exactly
one vertex (merged vertex added, old source and sink removed) and strictly
decreases the number of edges (at least the selected maximum-weight edge is
removed); consequently the edge list drains within finitely many rounds, so
the assembler terminates. -/
theorem greedy_step_monotone (fs : List (List Char)) (b : Bool) (pick : Nat → Nat)
    (n : Nat) (h : (runSteps pick 0 n (buildFromFragments fs b)).edges ≠ []) :
    (runSteps pick 0 (n + 1) (buildFromFragments fs b)).vertices.length + 1 =
      (runSteps pick 0 n (buildFromFragments fs b)).vertices.length ∧
    (runSteps pick 0 (n + 1) (buildFromFragments fs b)).edges.length <
      (runSteps pick 0 n (buildFromFragments fs b)).edges.length ∧
    ∃ m, (runSteps pick 0 m (buildFromFragments fs b)).edges = [] := by
  have hback := runSteps_succ_back pick n 0 (buildFromFragments fs b)
  rw [if_neg h] at hback
  refine ⟨?_, ?_, ⟨(buildFromFragments fs b).edges.length,
    runSteps_eventually_nil pick _ 0 _ (le_refl _)⟩⟩
  · rw [hback]
    exact mergeRound_vertex_count (inv_runSteps pick n 0 _ (inv_build fs b)) _ h
  · rw [hback]
    exact mergeRound_edges_lt _ _ h

/-- Witness for C4 on `["AC", "CG"]`, whose built graph has one edge. -/
theorem greedy_step_monotone_witness :
    (runSteps (fun _ => 0) 0 1 (buildFromFragments [['A', 'C'], ['C', 'G']] false)).vertices.length
        + 1 =
      (runSteps (fun _ => 0) 0 0
        (buildFromFragments [['A', 'C'], ['C', 'G']] false)).vertices.length ∧
    (runSteps (fun _ => 0) 0 1 (buildFromFragments [['A', 'C'], ['C', 'G']] false)).edges.length <
      (runSteps (fun _ => 0) 0 0
        (buildFromFragments [['A', 'C'], ['C', 'G']] false)).edges.length ∧
    ∃ m, (runSteps (fun _ => 0) 0 m (buildFromFragments [['A', 'C'], ['C', 'G']] false)).edges
        = [] :=
  greedy_step_monotone [['A', 'C'], ['C', 'G']] false (fun _ => 0) 0 (by decide)

/-- With no edges and at least two vertices, the merge loop exits at once
and the vertex list itself is returned. -/
theorem mergeByArbitraryTiebreaks_of_no_edges {pick : Nat → Nat} {g : OverlapGraph}
    (h : g.edges = []) (h2 : 2 ≤ g.vertices.length) :
    mergeByArbitraryTiebreaks pick g = AsmResult.leftover g.vertices := by
  show (match (mergeLoop pick 0 g).vertices with
    | [v] => AsmResult.assembled v.value
    | [] => AsmResult.internalError
    | vs => AsmResult.leftover vs) = AsmResult.leftover g.vertices
  rw [mergeLoop_eq, if_pos h]
  rcases hveq : g.vertices with _ | ⟨v1, _ | ⟨v2, rest⟩⟩
  · rw [hveq] at h2; simp at h2
  · rw [hveq] at h2; simp at h2
  · rfl

/-- C3 counterexample: a singleton fragment list has zero pairwise overlaps
(vacuously), yet the assembler returns the fragment as an *assembled*
sequence, not as the partial-result list the claim promises. -/
theorem zero_overlap_singleton_counterexample :
    mergeByArbitraryTiebreaks (fun _ => 0) (buildFromFragments [['A']] false) =
      AsmResult.assembled ['A'] ∧
    mergeByArbitraryTiebreaks (fun _ => 0) (buildFromFragments [['A']] false) ≠
      AsmResult.leftover (buildFromFragments [['A']] false).vertices := by
  have h : (buildFromFragments [['A']] false).edges = [] := by decide
  have hres : mergeByArbitraryTiebreaks (fun _ => 0) (buildFromFragments [['A']] false) =
      AsmResult.assembled ['A'] := by
    unfold mergeByArbitraryTiebreaks
    rw [mergeLoop_eq, if_pos h]
    rfl
  refine ⟨hres, ?_⟩
  rw [hres]
  decide

/-- C3 (amended): for every fragment list with at least two fragments in
which every ordered pair of distinct positions has overlap weight 0, the
`exercise_two` assembler builds a graph with no edges, the loop performs no
contraction, and the result is the leftover list of all original fragments
unchanged (a singleton list is instead returned as an assembled sequence);
the `assembly_with_nx` variant instead builds a graph with no nodes and no
edges at all, and its greedy assembly — finding no edges, then no nodes —
raises `ValueError` rather than returning the fragments. -/
theorem zero_overlap_returns_all_fragments (fs : List (List Char)) (b : Bool)
    (pick : Nat → Nat) (h2 : 2 ≤ fs.length)
    (hz : ∀ i j : Fin fs.length, (i : Nat) ≠ (j : Nat) →
      (overlap (fs.get i) (fs.get j)).weight = 0) :
    ((buildFromFragments fs b).edges = [] ∧
     mergeByArbitraryTiebreaks pick (buildFromFragments fs b) =
       AsmResult.leftover (buildFromFragments fs b).vertices ∧
     (buildFromFragments fs b).vertices.map Vertex.value = fs) ∧
    ((nxBuildOverlapGraph fs).nodes = [] ∧
     (nxBuildOverlapGraph fs).edges = [] ∧
     nxAssemblyGreedy (nxBuildOverlapGraph fs) = NxResult.error) := by
  have hnx := nxBuild_zero_overlap_empty fs hz
  refine ⟨?_, by rw [hnx]; exact rfl, by rw [hnx]; exact rfl, by rw [hnx]; exact rfl⟩
  have hvals : (buildFromFragments fs b).vertices.map Vertex.value = fs := by
    show (buildVertices fs).map Vertex.value = fs
    rw [buildVertices_eq_canon]
    exact canonVerts_values fs 0
  have hedges : (buildFromFragments fs b).edges = [] := by
    show determineEdges (buildVertices fs) = []
    apply determineEdges_eq_nil
    intro v hv w hw hne
    rw [buildVertices_eq_canon] at hv hw
    obtain ⟨i, hi, rfl⟩ := mem_canonVerts fs 0 v hv
    obtain ⟨j, hj, rfl⟩ := mem_canonVerts fs 0 w hw
    have hne' : (0 : Nat) + i + 1 ≠ 0 + j + 1 := hne
    refine hz ⟨i, hi⟩ ⟨j, hj⟩ ?_
    show i ≠ j
    intro hc
    exact hne' (by omega)
  have hlen : 2 ≤ (buildFromFragments fs b).vertices.length := by
    show 2 ≤ (buildVertices fs).length
    rw [buildVertices_eq_canon, canonVerts_length fs 0]
    exact h2
  exact ⟨hedges, mergeByArbitraryTiebreaks_of_no_edges hedges hlen, hvals⟩


/-- Witness for the amended C3 at `["AA", "CC"]`: no pair overlaps; the
`exercise_two` assembler hands both fragments back unchanged as the
leftover list, while the networkx variant builds an empty graph and errors
out. -/
theorem zero_overlap_returns_all_fragments_witness :
    ((buildFromFragments [['A', 'A'], ['C', 'C']] false).edges = [] ∧
     mergeByArbitraryTiebreaks (fun _ => 0) (buildFromFragments [['A', 'A'], ['C', 'C']] false) =
       AsmResult.leftover (buildFromFragments [['A', 'A'], ['C', 'C']] false).vertices ∧
     (buildFromFragments [['A', 'A'], ['C', 'C']] false).vertices.map Vertex.value =
       [['A', 'A'], ['C', 'C']]) ∧
    ((nxBuildOverlapGraph [['A', 'A'], ['C', 'C']]).nodes = [] ∧
     (nxBuildOverlapGraph [['A', 'A'], ['C', 'C']]).edges = [] ∧
     nxAssemblyGreedy (nxBuildOverlapGraph [['A', 'A'], ['C', 'C']]) = NxResult.error) :=
  zero_overlap_returns_all_fragments [['A', 'A'], ['C', 'C']] false (fun _ => 0)
    (by decide) (by decide)

/-- C6: with the random tie-break flag off, the assembler's result does not
depend on the random oracle at all — two runs on the same fragment list
produce identical results. -/
theorem deterministic_tiebreak_reproducible (fs : List (List Char))
    (pick1 pick2 : Nat → Nat) :
    mergeByArbitraryTiebreaks pick1 (buildFromFragments fs false) =
      mergeByArbitraryTiebreaks pick2 (buildFromFragments fs false) := by
  unfold mergeByArbitraryTiebreaks
  rw [mergeLoop_false_pick pick1 pick2 (buildFromFragments fs false).edges.length
    (buildFromFragments fs false) 0 0 (le_refl _) rfl]

/-- C7 counterexample: the fragment `"AX"` contains the non-base `'X'`, yet
graph construction proceeds: both malformed fragments become vertices and
an edge (the shared `"X"`) is created — no input-validation failure is ever
reported. -/
theorem no_validation_counterexample :
    ('X' ∉ (['A', 'C', 'G', 'T'] : List Char)) ∧
    (buildFromFragments [['A', 'X'], ['X', 'G']] false).vertices.map Vertex.value =
      [['A', 'X'], ['X', 'G']] ∧
    (buildFromFragments [['A', 'X'], ['X', 'G']] false).edges.length = 1 := by decide

/-- C7 (amended): no input validation exists.  Graph construction is a total
function that turns *any* fragment list — including fragments with
characters outside `{A,C,G,T}` — into vertices unchanged, and an empty
fragment list yields an empty graph whose greedy assembly returns the
internal-error outcome (after, not before, construction). -/
theorem build_accepts_any_fragments (fs : List (List Char)) (b : Bool) :
    (buildFromFragments fs b).vertices.map Vertex.value = fs ∧
    ∀ pick : Nat → Nat,
      mergeByArbitraryTiebreaks pick (buildFromFragments [] b) =
        AsmResult.internalError := by
  constructor
  · show (buildVertices fs).map Vertex.value = fs
    rw [buildVertices_eq_canon]
    exact canonVerts_values fs 0
  · intro pick
    show (match (mergeLoop pick 0 (buildFromFragments [] b)).vertices with
      | [v] => AsmResult.assembled v.value
      | [] => AsmResult.internalError
      | vs => AsmResult.leftover vs) = AsmResult.internalError
    rw [mergeLoop_eq, if_pos (show (buildFromFragments [] b).edges = [] from rfl)]
    rfl

/-- C8: `get_good_orientation(["A"])` crashes.  `calc_orientation` returns
`O, sum_same + sum_opp` where both sums are local to the last iteration of
its while loop; for a single-fragment input the loop never runs, the names
are unbound, and Python raises `UnboundLocalError` (modelled as `none`) —
so the resolver does not return a maximum-accumulated-score assignment for
every non-empty fragment list. -/
theorem orientation_crashes_on_singleton :
    getGoodOrientation [['A']] = none := rfl

/-- C10: the reverse-complement helper is total exactly on strings over
`{A,C,G,T}`: there it returns the reversed base-swapped string (same
length, same alphabet); on any string containing another character the
`COMPLEMENTS` dict lookup raises `KeyError` (modelled as `none`). -/
theorem complement_total_on_bases (s : List Char) :
    ((∀ c ∈ s, isBase c = true) →
      complement s = some (s.reverse.map baseSwap) ∧
      (s.reverse.map baseSwap).length = s.length ∧
      (∀ c ∈ s.reverse.map baseSwap, isBase c = true)) ∧
    ((∃ c ∈ s, isBase c = false) → complement s = none) := by
  constructor
  · intro hall
    refine ⟨?_, by simp, ?_⟩
    · unfold complement
      rw [complementList_eq, if_pos hall]
      simp [List.map_reverse]
    · intro c hc
      obtain ⟨d, hd, rfl⟩ := List.mem_map.mp hc
      exact baseSwap_isBase (hall d (List.mem_reverse.mp hd))
  · rintro ⟨c, hc, hbad⟩
    unfold complement
    rw [complementList_eq, if_neg]
    · rfl
    · intro hall
      rw [hall c hc] at hbad
      exact Bool.noConfusion hbad

/-- Witness for C10: `complement("AC") = "GT"`, and `complement("AX")`
raises (returns `none`). -/
theorem complement_total_on_bases_witness :
    (complement ['A', 'C'] = some ((['A', 'C'] : List Char).reverse.map baseSwap) ∧
      ((['A', 'C'] : List Char).reverse.map baseSwap).length = (['A', 'C'] : List Char).length ∧
      (∀ c ∈ (['A', 'C'] : List Char).reverse.map baseSwap, isBase c = true)) ∧
    complement ['A', 'X'] = none :=
  ⟨(complement_total_on_bases ['A', 'C']).1 (by decide),
   (complement_total_on_bases ['A', 'X']).2 (by decide)⟩

end SeqAsm
